import Mathlib

/-!
Verification of the `maxo` lexical scanner (package `lexer`, file `lexer.go`)
and its demonstration consumer (package `parser`).

The Go source is shallowly embedded:

* a Go `string` becomes a `List Nat` of its bytes;
* a Go `rune` becomes a `Nat` (the Unicode code point value);
* the `Items` channel becomes a `List Item` collecting the items in the
  order they are sent (the channel is single-producer single-consumer and
  FIFO, so the in-order list is an exact model of what the consumer sees);
* the mutually recursive state functions `lexText` / `lexWhitespace`
  driven by `scan` become one fuel-indexed function `scanLoop` over a
  mode tag; fuel exhaustion returns `none`, and we prove that the fuel
  used by `Lex` always suffices, which is the termination argument.

Every definition mirrors the corresponding Go declaration and keeps its
name where Lean allows it.
-/

namespace Maxo

/-- `ItemKind` from lexer.go: the classification tags, in declaration
order (`WhiteSpace ... ItemError`). Only `WhiteSpace`, `Text`, `EOF` and
`ItemError` are ever produced. -/
inductive ItemKind where
  | WhiteSpace
  | LineBreak
  | NewLine
  | Text
  | Digit
  | StringQuote
  | SingleLineComment
  | MultiLineCommentStart
  | MultiLineCommentEnd
  | Operator
  | EOF
  | ItemError
deriving DecidableEq, Repr

/-- `Item` from lexer.go: a classified segment of the input. -/
structure Item where
  Position : Nat
  Kind : ItemKind
  Value : List Nat
deriving DecidableEq, Repr

/-- `const eof = rune(0)` from lexer.go. -/
def eof : Nat := 0

/-- `utf8.RuneError` (U+FFFD), returned by the UTF-8 decoder on invalid
encodings. -/
def RuneError : Nat := 0xFFFD

/-- `unicode.IsSpace` from the Go standard library, restricted to the
code points it accepts: Latin-1 white space ('\t', '\n', '\v', '\f',
'\r', ' ', U+0085, U+00A0) plus the `White_Space` property ranges. -/
def isSpace (r : Nat) : Bool :=
  r == 0x09 || r == 0x0A || r == 0x0B || r == 0x0C || r == 0x0D ||
  r == 0x20 || r == 0x85 || r == 0xA0 || r == 0x1680 ||
  (0x2000 ≤ r && r ≤ 0x200A) ||
  r == 0x2028 || r == 0x2029 || r == 0x202F || r == 0x205F || r == 0x3000

/-- The accepted range for the second byte of a multi-byte UTF-8
sequence, per the `acceptRanges` table of Go's `unicode/utf8`. -/
def accept1 (b0 b1 : Nat) : Bool :=
  if b0 == 0xE0 then 0xA0 ≤ b1 && b1 ≤ 0xBF
  else if b0 == 0xED then 0x80 ≤ b1 && b1 ≤ 0x9F
  else if b0 == 0xF0 then 0x90 ≤ b1 && b1 ≤ 0xBF
  else if b0 == 0xF4 then 0x80 ≤ b1 && b1 ≤ 0x8F
  else 0x80 ≤ b1 && b1 ≤ 0xBF

/-- `utf8.DecodeRuneInString` from the Go standard library: decodes the
first code point of a byte string, returning the rune and its width.
Returns `(RuneError, 0)` on the empty string and `(RuneError, 1)` on an
invalid encoding. -/
def decodeRune : List Nat → Nat × Nat
  | [] => (RuneError, 0)
  | b0 :: rest =>
    if b0 < 0x80 then (b0, 1)
    else if b0 < 0xC2 then (RuneError, 1)
    else if b0 ≤ 0xDF then
      match rest with
      | b1 :: _ =>
        if 0x80 ≤ b1 ∧ b1 ≤ 0xBF then
          ((b0 % 0x20) * 0x40 + b1 % 0x40, 2)
        else (RuneError, 1)
      | [] => (RuneError, 1)
    else if b0 ≤ 0xEF then
      match rest with
      | b1 :: b2 :: _ =>
        if accept1 b0 b1 ∧ 0x80 ≤ b2 ∧ b2 ≤ 0xBF then
          ((b0 % 0x10) * 0x1000 + (b1 % 0x40) * 0x40 + b2 % 0x40, 3)
        else (RuneError, 1)
      | _ => (RuneError, 1)
    else if b0 ≤ 0xF4 then
      match rest with
      | b1 :: b2 :: b3 :: _ =>
        if accept1 b0 b1 ∧ 0x80 ≤ b2 ∧ b2 ≤ 0xBF ∧ 0x80 ≤ b3 ∧ b3 ≤ 0xBF then
          ((b0 % 0x8) * 0x40000 + (b1 % 0x40) * 0x1000 +
            (b2 % 0x40) * 0x40 + b3 % 0x40, 4)
        else (RuneError, 1)
      | _ => (RuneError, 1)
    else (RuneError, 1)

/-- The `Lexer` struct from lexer.go. The `Items` channel is modelled as
the list of items sent so far, in send order. -/
structure Lexer where
  input : List Nat
  start : Nat
  Position : Nat
  width : Nat
  Items : List Item
deriving DecidableEq, Repr

/-- `(*Lexer).ignore`: resets the start position to the current scan
position. -/
def Lexer.ignore (l : Lexer) : Lexer :=
  { l with start := l.Position }

/-- The Go slice expression `x[a:b]` over a byte string, as used by
`emit` to read `input[start:Position]`. -/
def seg (x : List Nat) (a b : Nat) : List Nat := (x.drop a).take (b - a)

/-- `(*Lexer).emit`: sends `input[start:Position]` classified as `k`
over the channel, then resets the scanner via `ignore`. -/
def Lexer.emit (k : ItemKind) (l : Lexer) : Lexer :=
  let accumulation := seg l.input l.start l.Position
  let i : Item := { Position := l.start, Kind := k, Value := accumulation }
  Lexer.ignore { l with Items := l.Items ++ [i] }

/-- `(*Lexer).next`: advances to the next rune. If `Position >=
len(input)` it records width 0 and returns the `eof` sentinel; otherwise
it decodes the rune at `Position`, advances by its width, and records
the width. -/
def Lexer.next (l : Lexer) : Nat × Lexer :=
  if l.input.length ≤ l.Position then (eof, { l with width := 0 })
  else
    let d := decodeRune (l.input.drop l.Position)
    (d.1, { l with Position := l.Position + d.2, width := d.2 })

/-- `(*Lexer).backup`: steps the position back by exactly one byte
(`l.Position = l.Position - 1`); it is not rune-width aware. -/
def Lexer.backup (l : Lexer) : Lexer :=
  { l with Position := l.Position - 1 }

/-- `(*Lexer).errorf`: sends a single `ItemError` item carrying the
message (the `Position` field is left at its zero value) and stops the
machine. No state handler in lexer.go ever calls it. -/
def Lexer.errorf (msg : List Nat) (l : Lexer) : Lexer :=
  { l with Items := l.Items ++ [{ Position := 0, Kind := ItemKind.ItemError, Value := msg }] }

/-- `(*Lexer).lexEOF`: emits the accumulated data classified as `k`,
then emits the terminal `EOF` item, and signals termination. The Go
guard `if l.start > l.Position { l.ignore() }` is kept verbatim. -/
def Lexer.lexEOF (k : ItemKind) (l : Lexer) : Lexer :=
  let l := if l.Position < l.start then Lexer.ignore l else l
  Lexer.emit ItemKind.EOF (Lexer.emit k l)

/-- The scanner has exactly two state functions, `lexText` and
`lexWhitespace`; a `Mode` names the one currently running. -/
inductive Mode where
  | text
  | whitespace
deriving DecidableEq, Repr

/-- The kind emitted by each state function at a boundary or at
end-of-input (`Text` for `lexText`, `WhiteSpace` for `lexWhitespace`). -/
def kindOf : Mode → ItemKind
  | Mode.text => ItemKind.Text
  | Mode.whitespace => ItemKind.WhiteSpace

/-- The classification-boundary test of each state function: `lexText`
leaves on a space rune (`unicode.IsSpace(r)`), `lexWhitespace` leaves on
a non-space rune (`!unicode.IsSpace(r)`). -/
def boundary : Mode → Nat → Bool
  | Mode.text, r => isSpace r
  | Mode.whitespace, r => !(isSpace r)

/-- The state function returned at a boundary: `lexText` returns
`lexWhitespace` and vice versa. -/
def otherMode : Mode → Mode
  | Mode.text => Mode.whitespace
  | Mode.whitespace => Mode.text

/-- The `scan` driver together with the bodies of `lexText` and
`lexWhitespace` from lexer.go, as one fuel-indexed loop. One unit of
fuel pays for one iteration of a state-function `for` loop, i.e. one
call to `next`. The branches are, in source order: `r == eof` returns
`l.lexEOF(kind)`; a boundary rune is `backup`-ed, the pending segment is
emitted when `l.Position > l.start`, and the other state function runs
next; otherwise the loop continues. `none` means the fuel ran out. -/
def scanLoop : Nat → Mode → Lexer → Option (List Item)
  | 0, _, _ => none
  | fuel + 1, mode, l =>
    match Lexer.next l with
    | (r, l1) =>
      if r = eof then some (Lexer.lexEOF (kindOf mode) l1).Items
      else if boundary mode r then
        let l2 := Lexer.backup l1
        scanLoop fuel (otherMode mode)
          (if l2.start < l2.Position then Lexer.emit (kindOf mode) l2 else l2)
      else scanLoop fuel mode l1

/-- The `Lexer` value constructed by `Lex` before the scan starts. -/
def mkLexer (input : List Nat) : Lexer :=
  { input := input, start := 0, Position := 0, width := 0, Items := [] }

/-- `Lex` from lexer.go: creates a lexer over `input`, runs the scan
starting in `lexText`, and yields the full contents of the `Items`
channel in emission order. The fuel `2 * input.length + 2` is proved
sufficient below (`scanLoop_isSome`), so the `.getD []` default is never
taken. -/
def Lex (input : List Nat) : List Item :=
  (scanLoop (2 * input.length + 2) Mode.text (mkLexer input)).getD []

/-- `true` exactly on the terminal kinds (`EOF` and `ItemError`). -/
def isTerminal : ItemKind → Bool
  | ItemKind.EOF => true
  | ItemKind.ItemError => true
  | _ => false

/-- The non-terminal items of an emitted sequence, in order. -/
def nonTerminals (items : List Item) : List Item :=
  items.filter (fun i => !(isTerminal i.Kind))

/-- One step of the alternation check: two adjacent items are fine when
either has an empty `Value` or their kinds differ. -/
def pairOK (a b : Item) : Bool :=
  a.Value.isEmpty || b.Value.isEmpty || !(a.Kind == b.Kind)

/-- The alternation check of the spec, as a Boolean over an item list:
every two consecutive items either have an empty `Value` on one side or
differ in `Kind`. -/
def alternationOK : List Item → Bool
  | a :: b :: rest => pairOK a b && alternationOK (b :: rest)
  | _ => true

/-- UTF-8 encoding of one rune, as performed by Go's `string([]rune)`
conversion: surrogate halves and out-of-range values encode as
`RuneError`. -/
def encodeRune (r : Nat) : List Nat :=
  if r < 0x80 then [r]
  else if r < 0x800 then [0xC0 + r / 0x40, 0x80 + r % 0x40]
  else if 0xD800 ≤ r && r ≤ 0xDFFF then [0xEF, 0xBF, 0xBD]
  else if r < 0x10000 then
    [0xE0 + r / 0x1000, 0x80 + (r / 0x40) % 0x40, 0x80 + r % 0x40]
  else if r < 0x110000 then
    [0xF0 + r / 0x40000, 0x80 + (r / 0x1000) % 0x40,
      0x80 + (r / 0x40) % 0x40, 0x80 + r % 0x40]
  else [0xEF, 0xBF, 0xBD]

/-- The decode-side width of `decodeRune` is positive on a non-empty
byte string: every branch of the cons case yields 1, 2, 3 or 4. -/
theorem decodeRune_snd_pos (b : Nat) (rest : List Nat) :
    1 ≤ (decodeRune (b :: rest)).2 := by
  simp only [decodeRune]
  repeat' split
  all_goals simp

/-- Structural worker for `runes`: the counter only bounds the number of
decode steps. Each step consumes at least one byte
(`decodeRune_snd_pos`), so a counter equal to the byte length is always
enough. -/
def runesAux : Nat → List Nat → List Nat
  | 0, _ => []
  | _, [] => []
  | n + 1, b :: rest =>
    (decodeRune (b :: rest)).1 ::
      runesAux n ((b :: rest).drop (decodeRune (b :: rest)).2)

/-- Go's `[]rune(s)` conversion: decode the byte string rune by rune,
invalid bytes becoming `RuneError` one byte at a time. -/
def runes (s : List Nat) : List Nat := runesAux s.length s

/-- `Reverse` from lexer.go: converts the string to runes, reverses the
rune slice in place, and converts back to a string. -/
def Reverse (s : List Nat) : List Nat :=
  ((runes s).reverse.map encodeRune).flatten

/-- The receive loop of `(*parser).parse` from the parser package: folds
over the item stream, accumulating a `strings.Builder`. `EOF` stores the
accumulated result; `ItemError` stores the error item; `Text` appends
the reversed value, `WhiteSpace` the value verbatim; all other kinds are
skipped. The first component models `p.result` (left at its zero value
`""` unless `EOF` is reached), the second `p.errItem`. -/
def parseLoop : List Item → List Nat → List Nat × Option (List Nat)
  | [], _ => ([], none)
  | i :: rest, sb =>
    match i.Kind with
    | ItemKind.EOF => (sb, none)
    | ItemKind.ItemError => ([], some i.Value)
    | ItemKind.Text => parseLoop rest (sb ++ Reverse i.Value)
    | ItemKind.WhiteSpace => parseLoop rest (sb ++ i.Value)
    | _ => parseLoop rest sb

/-- `Parse` from the parser package: drives a scan of `text` to
completion and returns `(p.result, nil)`, or `("", err)` when an error
item was observed; the error is modelled by the offending item's
`Value`. -/
def Parse (text : List Nat) : List Nat × Option (List Nat) :=
  let r := parseLoop (Lex text) []
  match r.2 with
  | some e => ([], some e)
  | none => (r.1, none)

/-- The three intermediate `Lexer` values visited inside `lexEOF`: after
the (dead) `ignore` guard, after `emit k`, and after `emit EOF`. -/
def lexEOFStates (k : ItemKind) (l : Lexer) : List Lexer :=
  let l1 := if l.Position < l.start then Lexer.ignore l else l
  [l1, Lexer.emit k l1, Lexer.emit ItemKind.EOF (Lexer.emit k l1)]

/-- The trace of `Lexer` values produced by the very same scan that
`scanLoop` performs, recording the state after every cursor operation
(`next`, `backup`, `emit`/`ignore`) in the order the state functions
invoke them. The branch structure is identical to `scanLoop`. -/
def scanStates : Nat → Mode → Lexer → List Lexer
  | 0, _, _ => []
  | fuel + 1, mode, l =>
    match Lexer.next l with
    | (r, l1) =>
      if r = eof then l1 :: lexEOFStates (kindOf mode) l1
      else if boundary mode r then
        let l2 := Lexer.backup l1
        let l3 := if l2.start < l2.Position then Lexer.emit (kindOf mode) l2 else l2
        l1 :: l2 :: l3 :: scanStates fuel (otherMode mode) l3
      else l1 :: scanStates fuel mode l1

/-! ### Helper lemmas -/

theorem seg_append {x : List Nat} {a b c : Nat} (hab : a ≤ b) (hbc : b ≤ c) :
    seg x a b ++ seg x b c = seg x a c := by
  unfold seg
  have h1 : c - a = (b - a) + (c - b) := by omega
  rw [h1, List.take_add, List.drop_drop]
  have h2 : a + (b - a) = b := by omega
  rw [h2]

theorem seg_ne_nil {x : List Nat} {a b : Nat} (hab : a < b) (hb : b ≤ x.length) :
    seg x a b ≠ [] := by
  unfold seg
  intro h
  have := congrArg List.length h
  simp only [List.length_take, List.length_drop, List.length_nil] at this
  omega

theorem seg_refl (x : List Nat) (a : Nat) : seg x a a = [] := by
  simp [seg]

theorem seg_full (x : List Nat) : seg x 0 x.length = x := by
  simp [seg]

theorem decodeRune_snd_le (s : List Nat) : (decodeRune s).2 ≤ s.length := by
  match s with
  | [] => simp [decodeRune]
  | b :: rest =>
    simp only [decodeRune]
    repeat' split
    all_goals simp_all [List.length_cons]

theorem decodeRune_snd_pos' {s : List Nat} (h : s ≠ []) :
    1 ≤ (decodeRune s).2 := by
  match s with
  | [] => exact absurd rfl h
  | b :: rest => exact decodeRune_snd_pos b rest

/-- A byte below `0x80` decodes to itself with width 1 (the ASCII fast
path of `utf8.DecodeRuneInString`). -/
theorem decodeRune_ascii {b : Nat} (rest : List Nat) (h : b < 0x80) :
    decodeRune (b :: rest) = (b, 1) := by
  simp [decodeRune, h]

/-- Bounds extracted from `accept1`: the continuation byte is always in
`[0x80, 0xBF]`, with the tighter lower bounds of the `0xE0` and `0xF0`
rows. -/
theorem accept1_bounds {b0 b1 : Nat} (h : accept1 b0 b1 = true) :
    0x80 ≤ b1 ∧ b1 ≤ 0xBF ∧ (b0 = 0xE0 → 0xA0 ≤ b1) ∧ (b0 = 0xF0 → 0x90 ≤ b1) := by
  have hmain : 0x80 ≤ b1 ∧ b1 ≤ 0xBF := by
    unfold accept1 at h
    repeat' split at h
    all_goals simp only [Bool.and_eq_true, decide_eq_true_eq] at h
    all_goals omega
  refine ⟨hmain.1, hmain.2, ?_, ?_⟩
  · intro he; subst he
    simp only [accept1] at h
    norm_num at h
    omega
  · intro he; subst he
    simp only [accept1] at h
    norm_num at h
    omega

/-- The only byte string whose first decoded rune is the `eof` sentinel
value 0 is one that begins with a NUL byte. -/
theorem decodeRune_fst_eq_zero {b : Nat} {rest : List Nat}
    (h : (decodeRune (b :: rest)).1 = 0) : b = 0 := by
  by_cases hb : b < 0x80
  · rwa [decodeRune_ascii rest hb] at h
  exfalso
  simp only [decodeRune, if_neg hb] at h
  by_cases h1 : b < 0xC2
  · rw [if_pos h1] at h
    exact absurd h (by decide)
  rw [if_neg h1] at h
  by_cases h2 : b ≤ 0xDF
  · rw [if_pos h2] at h
    rcases rest with _ | ⟨b1, t⟩
    · have hx : RuneError = 0 := h
      exact absurd hx (by decide)
    · have h' : (if 0x80 ≤ b1 ∧ b1 ≤ 0xBF then
          ((b % 0x20) * 0x40 + b1 % 0x40, 2) else (RuneError, 1)).1 = 0 := h
      split at h'
      · have h'' : b % 0x20 * 0x40 + b1 % 0x40 = 0 := h'
        omega
      · exact absurd h' (by decide)
  rw [if_neg h2] at h
  by_cases h3 : b ≤ 0xEF
  · rw [if_pos h3] at h
    rcases rest with _ | ⟨b1, _ | ⟨b2, t⟩⟩
    · have hx : RuneError = 0 := h
      exact absurd hx (by decide)
    · have hx : RuneError = 0 := h
      exact absurd hx (by decide)
    · have h' : (if accept1 b b1 ∧ 0x80 ≤ b2 ∧ b2 ≤ 0xBF then
          ((b % 0x10) * 0x1000 + (b1 % 0x40) * 0x40 + b2 % 0x40, 3)
        else (RuneError, 1)).1 = 0 := h
      split at h'
      · rename_i hr
        obtain ⟨ha, hb2a, hb2b⟩ := hr
        have hab := accept1_bounds ha
        have h'' : b % 0x10 * 0x1000 + b1 % 0x40 * 0x40 + b2 % 0x40 = 0 := h'
        omega
      · exact absurd h' (by decide)
  rw [if_neg h3] at h
  by_cases h4 : b ≤ 0xF4
  · rw [if_pos h4] at h
    rcases rest with _ | ⟨b1, _ | ⟨b2, _ | ⟨b3, t⟩⟩⟩
    · have hx : RuneError = 0 := h
      exact absurd hx (by decide)
    · have hx : RuneError = 0 := h
      exact absurd hx (by decide)
    · have hx : RuneError = 0 := h
      exact absurd hx (by decide)
    · have h' : (if accept1 b b1 ∧ 0x80 ≤ b2 ∧ b2 ≤ 0xBF ∧ 0x80 ≤ b3 ∧ b3 ≤ 0xBF then
          ((b % 0x8) * 0x40000 + (b1 % 0x40) * 0x1000 +
            (b2 % 0x40) * 0x40 + b3 % 0x40, 4)
        else (RuneError, 1)).1 = 0 := h
      split at h'
      · rename_i hr
        obtain ⟨ha, hx1, hx2, hx3, hx4⟩ := hr
        have hab := accept1_bounds ha
        have h'' : b % 0x8 * 0x40000 + b1 % 0x40 * 0x1000 + b2 % 0x40 * 0x40 + b3 % 0x40 = 0 := h'
        omega
      · exact absurd h' (by decide)
  · rw [if_neg h4] at h
    exact absurd h (by decide)

theorem next_of_le {l : Lexer} (h : l.input.length ≤ l.Position) :
    Lexer.next l = (eof, { l with width := 0 }) := by
  simp [Lexer.next, h]

theorem next_of_lt {l : Lexer} (h : l.Position < l.input.length) :
    Lexer.next l =
      ((decodeRune (l.input.drop l.Position)).1,
        { l with Position := l.Position + (decodeRune (l.input.drop l.Position)).2,
                 width := (decodeRune (l.input.drop l.Position)).2 }) := by
  simp [Lexer.next, Nat.not_le.mpr h]

theorem emit_eq (k : ItemKind) (l : Lexer) :
    Lexer.emit k l =
      { input := l.input, start := l.Position, Position := l.Position,
        width := l.width,
        Items := l.Items ++ [{ Position := l.start, Kind := k,
                               Value := seg l.input l.start l.Position }] } := by
  simp [Lexer.emit, Lexer.ignore]

theorem lexEOF_Items (k : ItemKind) (l : Lexer) (h : l.start ≤ l.Position) :
    (Lexer.lexEOF k l).Items =
      l.Items ++ [{ Position := l.start, Kind := k,
                    Value := seg l.input l.start l.Position },
                  { Position := l.Position, Kind := ItemKind.EOF, Value := [] }] := by
  simp [Lexer.lexEOF, Nat.not_lt.mpr h, emit_eq, seg_refl, Nat.not_lt.mpr (Nat.le_refl l.Position)]

/-- The main structural invariant of a completed scan. Starting from any
cursor state with `start ≤ Position ≤ length input`, the items emitted
from that point on are a run `ts` of `Text`/`WhiteSpace` segments that
exactly tile `input[start:pEnd]`, followed by one terminal `EOF` item at
`pEnd`, the offset where the scan stopped. `pEnd` is the input length
whenever the input contains no NUL byte (a NUL decodes to the rune 0,
which `next` cannot distinguish from its `eof` sentinel). Every segment
in `ts` is non-empty unless the scan starts exactly at the end of the
input with nothing pending. -/
theorem scanLoop_spec (fuel : Nat) :
    ∀ (mode : Mode) (l : Lexer) (out : List Item),
      l.start ≤ l.Position → l.Position ≤ l.input.length →
      scanLoop fuel mode l = some out →
      ∃ ts pEnd,
        out = l.Items ++ ts ++
          [{ Position := pEnd, Kind := ItemKind.EOF, Value := [] }] ∧
        l.start ≤ pEnd ∧ pEnd ≤ l.input.length ∧
        (∀ i ∈ ts, i.Kind = ItemKind.Text ∨ i.Kind = ItemKind.WhiteSpace) ∧
        (ts.map Item.Value).flatten = seg l.input l.start pEnd ∧
        ((0 : Nat) ∉ l.input → pEnd = l.input.length) ∧
        ((l.start < l.Position ∨ l.Position < l.input.length) →
          ∀ i ∈ ts, i.Value ≠ []) := by
  induction fuel with
  | zero =>
    intro mode l out _ _ h
    simp [scanLoop] at h
  | succ fuel ih =>
    intro mode l out hs hp hout
    by_cases hpos : l.input.length ≤ l.Position
    · -- `next` reports genuine end of input
      simp only [scanLoop, next_of_le hpos] at hout
      rw [if_pos trivial] at hout
      rw [lexEOF_Items (kindOf mode) { l with width := 0 } hs] at hout
      have hO : out = l.Items ++
          [{ Position := l.start, Kind := kindOf mode,
             Value := seg l.input l.start l.Position },
           { Position := l.Position, Kind := ItemKind.EOF, Value := [] }] :=
        (Option.some.inj hout).symm
      refine ⟨[{ Position := l.start, Kind := kindOf mode,
                 Value := seg l.input l.start l.Position }], l.Position,
             ?_, hs, hp, ?_, ?_, ?_, ?_⟩
      · rw [hO]; simp
      · intro i hi
        simp only [List.mem_singleton] at hi
        subst hi
        cases mode <;> simp [kindOf]
      · simp
      · intro _
        omega
      · intro hcond i hi
        simp only [List.mem_singleton] at hi
        subst hi
        simp only
        exact seg_ne_nil (by omega) hp
    · -- `next` decodes a rune
      have hlt : l.Position < l.input.length := Nat.lt_of_not_le hpos
      have hdrop : l.input.drop l.Position ≠ [] := by
        intro hnil
        have := congrArg List.length hnil
        simp only [List.length_drop, List.length_nil] at this
        omega
      have hw1 : 1 ≤ (decodeRune (l.input.drop l.Position)).2 :=
        decodeRune_snd_pos' hdrop
      have hw2 : (decodeRune (l.input.drop l.Position)).2 ≤
          l.input.length - l.Position := by
        have := decodeRune_snd_le (l.input.drop l.Position)
        simpa using this
      simp only [scanLoop, next_of_lt hlt] at hout
      by_cases hr : (decodeRune (l.input.drop l.Position)).1 = eof
      · -- a NUL byte inside the input: treated as end of input
        rw [if_pos hr] at hout
        rw [lexEOF_Items (kindOf mode)
          { l with Position := l.Position + (decodeRune (l.input.drop l.Position)).2,
                   width := (decodeRune (l.input.drop l.Position)).2 }
          (show l.start ≤ l.Position + (decodeRune (l.input.drop l.Position)).2 by omega)]
          at hout
        have hO : out = l.Items ++
            [{ Position := l.start, Kind := kindOf mode,
               Value := seg l.input l.start
                 (l.Position + (decodeRune (l.input.drop l.Position)).2) },
             { Position := l.Position + (decodeRune (l.input.drop l.Position)).2,
               Kind := ItemKind.EOF, Value := [] }] :=
          (Option.some.inj hout).symm
        refine ⟨[{ Position := l.start, Kind := kindOf mode,
                   Value := seg l.input l.start
                     (l.Position + (decodeRune (l.input.drop l.Position)).2) }],
               l.Position + (decodeRune (l.input.drop l.Position)).2,
               ?_, by omega, by omega, ?_, ?_, ?_, ?_⟩
        · rw [hO]; simp
        · intro i hi
          simp only [List.mem_singleton] at hi
          subst hi
          cases mode <;> simp [kindOf]
        · simp
        · intro h0
          exfalso
          obtain ⟨b, rest, hcons⟩ := List.exists_cons_of_ne_nil hdrop
          rw [hcons] at hr
          have hb0 : b = 0 := decodeRune_fst_eq_zero hr
          have hbmem : b ∈ l.input := by
            apply List.drop_subset
            rw [hcons]
            exact List.mem_cons_self b rest
          rw [hb0] at hbmem
          exact h0 hbmem
        · intro _ i hi
          simp only [List.mem_singleton] at hi
          subst hi
          simp only
          exact seg_ne_nil (by omega) (by omega)
      · rw [if_neg hr] at hout
        by_cases hbd : boundary mode (decodeRune (l.input.drop l.Position)).1 = true
        · -- classification boundary: back up, maybe emit, switch mode
          rw [if_pos hbd] at hout
          simp only [Lexer.backup, Lexer.emit, Lexer.ignore] at hout
          split at hout
          · -- the pending segment is non-empty and is emitted
            rename_i hemit
            obtain ⟨ts', pEnd, hout', hsp, hpe, hkinds, hflat, hnul, hne⟩ :=
              ih (otherMode mode) _ out (Nat.le_refl _)
                (show l.Position + (decodeRune (l.input.drop l.Position)).2 - 1 ≤
                  l.input.length by omega) hout
            have hO : out =
                (l.Items ++
                  [{ Position := l.start, Kind := kindOf mode,
                     Value := seg l.input l.start
                       (l.Position + (decodeRune (l.input.drop l.Position)).2 - 1) }]) ++
                ts' ++ [{ Position := pEnd, Kind := ItemKind.EOF, Value := [] }] := hout'
            have hsp' : l.Position + (decodeRune (l.input.drop l.Position)).2 - 1 ≤ pEnd := hsp
            have hpe' : pEnd ≤ l.input.length := hpe
            have hflat' : (ts'.map Item.Value).flatten =
                seg l.input (l.Position + (decodeRune (l.input.drop l.Position)).2 - 1) pEnd :=
              hflat
            have hnul' : (0 : Nat) ∉ l.input → pEnd = l.input.length := hnul
            have hemit' : l.start < l.Position + (decodeRune (l.input.drop l.Position)).2 - 1 :=
              hemit
            refine ⟨{ Position := l.start, Kind := kindOf mode,
                      Value := seg l.input l.start
                        (l.Position + (decodeRune (l.input.drop l.Position)).2 - 1) } :: ts',
                   pEnd, ?_, by omega, hpe', ?_, ?_, hnul', ?_⟩
            · rw [hO]; simp
            · intro i hi
              rcases List.mem_cons.mp hi with hi | hi
              · subst hi
                cases mode <;> simp [kindOf]
              · exact hkinds i hi
            · simp only [List.map_cons, List.flatten_cons, hflat']
              exact seg_append (by omega) hsp'
            · intro _ i hi
              rcases List.mem_cons.mp hi with hi | hi
              · subst hi
                simp only
                exact seg_ne_nil hemit' (by omega)
              · refine hne (Or.inr ?_) i hi
                show l.Position + (decodeRune (l.input.drop l.Position)).2 - 1 < l.input.length
                omega
          · -- nothing pending: just switch mode
            rename_i hnoemit
            have hnoemit' :
                ¬ l.start < l.Position + (decodeRune (l.input.drop l.Position)).2 - 1 :=
              hnoemit
            obtain ⟨ts', pEnd, hout', hsp, hpe, hkinds, hflat, hnul, hne⟩ :=
              ih (otherMode mode)
                { l with Position := l.Position + (decodeRune (l.input.drop l.Position)).2 - 1,
                         width := (decodeRune (l.input.drop l.Position)).2 } out
                (show l.start ≤ l.Position + (decodeRune (l.input.drop l.Position)).2 - 1
                  by omega)
                (show l.Position + (decodeRune (l.input.drop l.Position)).2 - 1 ≤
                  l.input.length by omega) hout
            have hO : out = l.Items ++ ts' ++
                [{ Position := pEnd, Kind := ItemKind.EOF, Value := [] }] := hout'
            have hsp' : l.start ≤ pEnd := hsp
            have hpe' : pEnd ≤ l.input.length := hpe
            have hflat' : (ts'.map Item.Value).flatten = seg l.input l.start pEnd := hflat
            have hnul' : (0 : Nat) ∉ l.input → pEnd = l.input.length := hnul
            refine ⟨ts', pEnd, hO, hsp', hpe', hkinds, hflat', hnul', ?_⟩
            intro _ i hi
            refine hne (Or.inr ?_) i hi
            show l.Position + (decodeRune (l.input.drop l.Position)).2 - 1 < l.input.length
            omega
        · -- same classification: keep consuming
          rw [if_neg hbd] at hout
          obtain ⟨ts', pEnd, hout', hsp, hpe, hkinds, hflat, hnul, hne⟩ :=
            ih mode
              { l with Position := l.Position + (decodeRune (l.input.drop l.Position)).2,
                       width := (decodeRune (l.input.drop l.Position)).2 } out
              (show l.start ≤ l.Position + (decodeRune (l.input.drop l.Position)).2 by omega)
              (show l.Position + (decodeRune (l.input.drop l.Position)).2 ≤
                l.input.length by omega) hout
          have hO : out = l.Items ++ ts' ++
              [{ Position := pEnd, Kind := ItemKind.EOF, Value := [] }] := hout'
          have hsp' : l.start ≤ pEnd := hsp
          have hpe' : pEnd ≤ l.input.length := hpe
          have hflat' : (ts'.map Item.Value).flatten = seg l.input l.start pEnd := hflat
          have hnul' : (0 : Nat) ∉ l.input → pEnd = l.input.length := hnul
          refine ⟨ts', pEnd, hO, hsp', hpe', hkinds, hflat', hnul', ?_⟩
          intro _ i hi
          refine hne (Or.inl ?_) i hi
          show l.start < l.Position + (decodeRune (l.input.drop l.Position)).2
          omega

/-- At a boundary the two state functions test complementary
predicates. -/
theorem boundary_other (m : Mode) (r : Nat) :
    boundary (otherMode m) r = !(boundary m r) := by
  cases m <;> simp [boundary, otherMode]

/-- Fuel adequacy, i.e. termination of the scan: `2*k + 2` fuel
completes the scan whenever at most `k` bytes remain. Every loop
iteration advances the position except the hand-off at a
single-byte-wide boundary rune, and there the receiving state function
consumes that very rune on its first iteration, so each byte costs at
most two iterations. -/
theorem scanLoop_isSome :
    ∀ (k : Nat) (mode : Mode) (l : Lexer) (fuel : Nat),
      l.Position ≤ l.input.length →
      l.input.length - l.Position ≤ k →
      2 * k + 2 ≤ fuel →
      (scanLoop fuel mode l).isSome := by
  intro k
  induction k with
  | zero =>
    intro mode l fuel hp hk hf
    obtain ⟨fuel1, rfl⟩ : ∃ f, fuel = f + 1 := ⟨fuel - 1, by omega⟩
    have hpos : l.input.length ≤ l.Position := by omega
    simp only [scanLoop, next_of_le hpos]
    rw [if_pos trivial]
    simp
  | succ k ih =>
    intro mode l fuel hp hk hf
    obtain ⟨fuel1, rfl⟩ : ∃ f, fuel = f + 1 := ⟨fuel - 1, by omega⟩
    by_cases hpos : l.input.length ≤ l.Position
    · simp only [scanLoop, next_of_le hpos]
      rw [if_pos trivial]
      simp
    · have hlt : l.Position < l.input.length := Nat.lt_of_not_le hpos
      have hdrop : l.input.drop l.Position ≠ [] := by
        intro hnil
        have := congrArg List.length hnil
        simp only [List.length_drop, List.length_nil] at this
        omega
      have hw1 : 1 ≤ (decodeRune (l.input.drop l.Position)).2 :=
        decodeRune_snd_pos' hdrop
      have hw2 : (decodeRune (l.input.drop l.Position)).2 ≤
          l.input.length - l.Position := by
        have := decodeRune_snd_le (l.input.drop l.Position)
        simpa using this
      simp only [scanLoop, next_of_lt hlt]
      by_cases hr : (decodeRune (l.input.drop l.Position)).1 = eof
      · rw [if_pos hr]
        simp
      · rw [if_neg hr]
        by_cases hbd : boundary mode (decodeRune (l.input.drop l.Position)).1 = true
        · rw [if_pos hbd]
          simp only [Lexer.backup, Lexer.emit, Lexer.ignore]
          by_cases hwide : 2 ≤ (decodeRune (l.input.drop l.Position)).2
          · -- the boundary rune was at least two bytes wide: net progress
            split
            · exact ih (otherMode mode) _ fuel1
                (show l.Position + (decodeRune (l.input.drop l.Position)).2 - 1 ≤
                  l.input.length by omega)
                (show l.input.length -
                  (l.Position + (decodeRune (l.input.drop l.Position)).2 - 1) ≤ k by omega)
                (by omega)
            · exact ih (otherMode mode) _ fuel1
                (show l.Position + (decodeRune (l.input.drop l.Position)).2 - 1 ≤
                  l.input.length by omega)
                (show l.input.length -
                  (l.Position + (decodeRune (l.input.drop l.Position)).2 - 1) ≤ k by omega)
                (by omega)
          · -- single-byte boundary rune: the position is unchanged, but the
            -- receiving state function consumes this very rune next
            have hw2eq : (decodeRune (l.input.drop l.Position)).2 = 1 := by omega
            obtain ⟨fuel2, rfl⟩ : ∃ f, fuel1 = f + 1 := ⟨fuel1 - 1, by omega⟩
            have hbd2 : ¬ boundary (otherMode mode)
                (decodeRune (l.input.drop l.Position)).1 = true := by
              rw [boundary_other, hbd]
              simp
            split
            · simp only [scanLoop, Lexer.next, hw2eq, Nat.add_sub_cancel]
              rw [if_neg hpos]
              simp only
              rw [if_neg hr, if_neg hbd2]
              exact ih (otherMode mode) _ fuel2
                (show l.Position + 1 ≤ l.input.length by omega)
                (show l.input.length - (l.Position + 1) ≤ k by omega)
                (by omega)
            · simp only [scanLoop, Lexer.next, hw2eq, Nat.add_sub_cancel]
              rw [if_neg hpos]
              simp only
              rw [if_neg hr, if_neg hbd2]
              exact ih (otherMode mode) _ fuel2
                (show l.Position + 1 ≤ l.input.length by omega)
                (show l.input.length - (l.Position + 1) ≤ k by omega)
                (by omega)
        · rw [if_neg hbd]
          exact ih mode _ fuel1
            (show l.Position + (decodeRune (l.input.drop l.Position)).2 ≤
              l.input.length by omega)
            (show l.input.length -
              (l.Position + (decodeRune (l.input.drop l.Position)).2) ≤ k by omega)
            (by omega)

theorem alternationOK_concat {xs : List Item} {a : Item}
    (h : alternationOK xs = true)
    (hlast : ∀ x, xs.getLast? = some x → pairOK x a = true) :
    alternationOK (xs ++ [a]) = true := by
  induction xs with
  | nil => simp [alternationOK]
  | cons x rest ih =>
    cases rest with
    | nil =>
      simp only [List.cons_append, List.nil_append, alternationOK, Bool.and_eq_true]
      exact ⟨hlast x rfl, trivial⟩
    | cons y rest' =>
      simp only [alternationOK, Bool.and_eq_true] at h
      have := ih h.2 (by
        intro z hz
        apply hlast
        rw [List.getLast?_cons_cons]
        exact hz)
      simp only [List.cons_append, alternationOK, Bool.and_eq_true]
      exact ⟨h.1, this⟩

theorem kindOf_ne_other (m : Mode) : kindOf m ≠ kindOf (otherMode m) := by
  cases m <;> simp [kindOf, otherMode]

theorem nonTerminals_append (xs ys : List Item) :
    nonTerminals (xs ++ ys) = nonTerminals xs ++ nonTerminals ys := by
  simp [nonTerminals]

theorem nonTerminals_kindOf (p : Nat) (m : Mode) (v : List Nat) :
    nonTerminals [{ Position := p, Kind := kindOf m, Value := v }] =
      [{ Position := p, Kind := kindOf m, Value := v }] := by
  cases m <;> simp [nonTerminals, isTerminal, kindOf]

theorem nonTerminals_EOF (p : Nat) (v : List Nat) :
    nonTerminals [{ Position := p, Kind := ItemKind.EOF, Value := v }] = [] := by
  simp [nonTerminals, isTerminal]

theorem nonTerminals_pend_eof (p q : Nat) (m : Mode) (v : List Nat) :
    nonTerminals [{ Position := p, Kind := kindOf m, Value := v },
                  { Position := q, Kind := ItemKind.EOF, Value := [] }] =
      [{ Position := p, Kind := kindOf m, Value := v }] := by
  cases m <;> simp [nonTerminals, isTerminal, kindOf]

/-- On an all-ASCII input every decode step reads exactly the byte under
the cursor, with width one. -/
theorem decodeRune_at_ascii {l : Lexer} (hascii : ∀ b ∈ l.input, b < 0x80)
    (hlt : l.Position < l.input.length) :
    decodeRune (l.input.drop l.Position) =
      (l.input.getD l.Position 0, 1) := by
  rw [List.drop_eq_getElem_cons hlt, List.getD_eq_getElem l.input 0 hlt]
  exact decodeRune_ascii _ (hascii _ (List.getElem_mem hlt))

/-- The alternation invariant for all-ASCII inputs, carried through the
scan: if the items sent so far alternate, the most recently sent
non-empty non-terminal item does not have the kind the current state
function would emit, and (when nothing is pending) the byte under the
cursor belongs to the current state function's class, then the completed
scan's items alternate as well. -/
theorem scanLoop_alternation (fuel : Nat) :
    ∀ (mode : Mode) (l : Lexer) (out : List Item),
      (∀ b ∈ l.input, b < 0x80) →
      l.start ≤ l.Position → l.Position ≤ l.input.length →
      alternationOK (nonTerminals l.Items) = true →
      (∀ x, (nonTerminals l.Items).getLast? = some x → x.Value ≠ [] →
        x.Kind ≠ kindOf mode) →
      (l.start = l.Position → nonTerminals l.Items ≠ [] →
        l.Position < l.input.length ∧
          (isSpace (l.input.getD l.Position 0) = true ↔ mode = Mode.whitespace)) →
      scanLoop fuel mode l = some out →
      alternationOK (nonTerminals out) = true := by
  induction fuel with
  | zero =>
    intro mode l out _ _ _ _ _ _ h
    simp [scanLoop] at h
  | succ fuel ih =>
    intro mode l out hascii hs hp halt hlast hentry hout
    by_cases hpos : l.input.length ≤ l.Position
    · -- genuine end of input: emit pending (kind of the current mode), then EOF
      simp only [scanLoop, next_of_le hpos] at hout
      rw [if_pos trivial] at hout
      rw [lexEOF_Items (kindOf mode) { l with width := 0 } hs] at hout
      have hO : out = l.Items ++
          [{ Position := l.start, Kind := kindOf mode,
             Value := seg l.input l.start l.Position },
           { Position := l.Position, Kind := ItemKind.EOF, Value := [] }] :=
        (Option.some.inj hout).symm
      rw [hO, nonTerminals_append, nonTerminals_pend_eof]
      apply alternationOK_concat halt
      intro x hx
      by_cases hv : x.Value = []
      · simp [pairOK, hv]
      · have hxk := hlast x hx hv
        simp only [pairOK, Bool.or_eq_true, Bool.not_eq_true', beq_eq_false_iff_ne]
        tauto
    · have hlt : l.Position < l.input.length := Nat.lt_of_not_le hpos
      have hdec : decodeRune (l.input.drop l.Position) =
          (l.input.getD l.Position 0, 1) := decodeRune_at_ascii hascii hlt
      simp only [scanLoop, next_of_lt hlt, hdec] at hout
      by_cases hr : l.input.getD l.Position 0 = eof
      · -- NUL byte: early end of input, same shape as the genuine one
        rw [if_pos hr] at hout
        rw [lexEOF_Items (kindOf mode)
          { l with Position := l.Position + 1, width := 1 }
          (show l.start ≤ l.Position + 1 by omega)] at hout
        have hO : out = l.Items ++
            [{ Position := l.start, Kind := kindOf mode,
               Value := seg l.input l.start (l.Position + 1) },
             { Position := l.Position + 1, Kind := ItemKind.EOF, Value := [] }] :=
          (Option.some.inj hout).symm
        rw [hO, nonTerminals_append, nonTerminals_pend_eof]
        apply alternationOK_concat halt
        intro x hx
        by_cases hv : x.Value = []
        · simp [pairOK, hv]
        · have hxk := hlast x hx hv
          simp only [pairOK, Bool.or_eq_true, Bool.not_eq_true', beq_eq_false_iff_ne]
          tauto
      · rw [if_neg hr] at hout
        by_cases hbd : boundary mode (l.input.getD l.Position 0) = true
        · rw [if_pos hbd] at hout
          simp only [Lexer.backup, Lexer.emit, Lexer.ignore, Nat.add_sub_cancel] at hout
          split at hout
          · -- emit of the pending segment, then the other state function
            rename_i hemit
            have hemit' : l.start < l.Position := hemit
            refine ih (otherMode mode)
              { l with Position := l.Position,
                       width := 1,
                       Items := l.Items ++
                         [{ Position := l.start, Kind := kindOf mode,
                            Value := seg l.input l.start l.Position }],
                       start := l.Position } out
              hascii (Nat.le_refl _) hp ?_ ?_ ?_ hout
            · show alternationOK (nonTerminals (l.Items ++
                [{ Position := l.start, Kind := kindOf mode,
                   Value := seg l.input l.start l.Position }])) = true
              rw [nonTerminals_append, nonTerminals_kindOf]
              apply alternationOK_concat halt
              intro x hx
              by_cases hv : x.Value = []
              · simp [pairOK, hv]
              · have hxk := hlast x hx hv
                simp only [pairOK, Bool.or_eq_true, Bool.not_eq_true', beq_eq_false_iff_ne]
                tauto
            · show ∀ x, (nonTerminals (l.Items ++
                [{ Position := l.start, Kind := kindOf mode,
                   Value := seg l.input l.start l.Position }])).getLast? = some x →
                x.Value ≠ [] → x.Kind ≠ kindOf (otherMode mode)
              intro x hx _
              rw [nonTerminals_append, nonTerminals_kindOf,
                  List.getLast?_concat] at hx
              have hxeq := Option.some.inj hx
              rw [← hxeq]
              exact kindOf_ne_other mode
            · show l.Position = l.Position → _ ≠ ([] : List Item) →
                l.Position < l.input.length ∧
                  (isSpace (l.input.getD l.Position 0) = true ↔
                    otherMode mode = Mode.whitespace)
              intro _ _
              refine ⟨hlt, ?_⟩
              cases mode with
              | text =>
                simp only [boundary] at hbd
                exact ⟨fun _ => by decide, fun _ => hbd⟩
              | whitespace =>
                simp only [boundary, Bool.not_eq_true'] at hbd
                constructor
                · intro hcontra
                  rw [hbd] at hcontra
                  exact absurd hcontra (by decide)
                · intro hcontra
                  exact absurd hcontra (by decide)
          · -- nothing pending: the hand-off keeps the item list unchanged
            rename_i hnoemit
            have hnoemit' : ¬ l.start < l.Position := hnoemit
            have hse : l.start = l.Position := by omega
            -- the entry condition forbids this hand-off unless no
            -- non-terminal item has been sent yet
            have hnt : nonTerminals l.Items = [] := by
              by_contra hne
              obtain ⟨_, hiff⟩ := hentry hse hne
              cases mode with
              | text =>
                simp only [boundary] at hbd
                exact absurd (hiff.mp hbd) (by decide)
              | whitespace =>
                simp only [boundary, Bool.not_eq_true'] at hbd
                have hcontra := hiff.mpr rfl
                rw [hbd] at hcontra
                exact absurd hcontra (by decide)
            refine ih (otherMode mode)
              { l with Position := l.Position, width := 1 } out
              hascii (show l.start ≤ l.Position by omega) hp ?_ ?_ ?_ hout
            · show alternationOK (nonTerminals l.Items) = true
              exact halt
            · show ∀ x, (nonTerminals l.Items).getLast? = some x → x.Value ≠ [] →
                x.Kind ≠ kindOf (otherMode mode)
              intro x hx
              rw [hnt] at hx
              simp at hx
            · show l.start = l.Position → nonTerminals l.Items ≠ [] → _
              intro _ hne
              exact absurd hnt hne
        · -- same class: consume the byte and stay in this state function
          rw [if_neg hbd] at hout
          refine ih mode { l with Position := l.Position + 1, width := 1 } out
            hascii (show l.start ≤ l.Position + 1 by omega)
            (show l.Position + 1 ≤ l.input.length by omega) halt ?_ ?_ hout
          · show ∀ x, (nonTerminals l.Items).getLast? = some x → x.Value ≠ [] →
              x.Kind ≠ kindOf mode
            exact hlast
          · show l.start = l.Position + 1 → nonTerminals l.Items ≠ [] → _
            intro habs
            omega

theorem nonTerminals_eq_self {ts : List Item}
    (h : ∀ i ∈ ts, i.Kind = ItemKind.Text ∨ i.Kind = ItemKind.WhiteSpace) :
    nonTerminals ts = ts := by
  unfold nonTerminals
  apply List.filter_eq_self.mpr
  intro i hi
  rcases h i hi with hk | hk <;> simp [isTerminal, hk]

/-- The receive loop never records an error item when fed a stream of
`Text`/`WhiteSpace` items closed by a final `EOF` item. -/
theorem parseLoop_no_error :
    ∀ (ts : List Item) (sb : List Nat) (p : Nat),
      (∀ i ∈ ts, i.Kind = ItemKind.Text ∨ i.Kind = ItemKind.WhiteSpace) →
      (parseLoop (ts ++ [{ Position := p, Kind := ItemKind.EOF, Value := [] }])
        sb).2 = none := by
  intro ts
  induction ts with
  | nil =>
    intro sb p _
    simp [parseLoop]
  | cons i rest ih =>
    intro sb p hk
    rcases hk i (List.mem_cons_self i rest) with h | h <;>
      · simp only [List.cons_append, parseLoop, h]
        exact ih _ p fun j hj => hk j (List.mem_cons_of_mem _ hj)

/-- The full scan of `Lex`, extracted from fuel adequacy and the
structural invariant: the output is `ts ++ [EOF item]` with `ts` made of
`Text`/`WhiteSpace` items covering `input[0:pEnd]`. -/
theorem Lex_spec (input : List Nat) :
    ∃ ts pEnd,
      scanLoop (2 * input.length + 2) Mode.text (mkLexer input) =
        some (ts ++ [{ Position := pEnd, Kind := ItemKind.EOF, Value := [] }]) ∧
      Lex input = ts ++ [{ Position := pEnd, Kind := ItemKind.EOF, Value := [] }] ∧
      pEnd ≤ input.length ∧
      (∀ i ∈ ts, i.Kind = ItemKind.Text ∨ i.Kind = ItemKind.WhiteSpace) ∧
      (ts.map Item.Value).flatten = seg input 0 pEnd ∧
      ((0 : Nat) ∉ input → pEnd = input.length) ∧
      (0 < input.length → ∀ i ∈ ts, i.Value ≠ []) := by
  have hsome := scanLoop_isSome input.length Mode.text (mkLexer input)
    (2 * input.length + 2)
    (show (0 : Nat) ≤ input.length by omega)
    (show input.length - 0 ≤ input.length by omega)
    (by omega)
  obtain ⟨out, hout⟩ := Option.isSome_iff_exists.mp hsome
  obtain ⟨ts, pEnd, hO, _, hpe, hkinds, hflat, hnul, hne⟩ :=
    scanLoop_spec (2 * input.length + 2) Mode.text (mkLexer input) out
      (Nat.le_refl 0) (show (0 : Nat) ≤ input.length by omega) hout
  have hO' : out = ts ++ [{ Position := pEnd, Kind := ItemKind.EOF, Value := [] }] := by
    rw [hO]
    show ([] : List Item) ++ ts ++ _ = _
    simp
  refine ⟨ts, pEnd, ?_, ?_, hpe, hkinds, hflat, hnul, ?_⟩
  · rw [hout, hO']
  · rw [Lex, hout, hO']
    rfl
  · intro hlen
    exact hne (Or.inr hlen)

/-! ### The claims -/

/-- C1. Concatenating the `Value` fields of all non-terminal items
produced by `Lex`, in emission order, reproduces the input exactly. The
hypothesis `0 ∉ input` (no NUL byte) is implied by the claim's
restriction to whitespace and non-whitespace printable text: NUL is
neither, and no UTF-8 encoding of any other code point contains a 0x00
byte. Without it the scan stops early at the NUL, which `next` cannot
tell apart from its end-of-input sentinel. -/
theorem lex_segmentation_exact (input : List Nat) (h0 : (0 : Nat) ∉ input) :
    ((nonTerminals (Lex input)).map Item.Value).flatten = input := by
  obtain ⟨ts, pEnd, _, hLex, hpe, hkinds, hflat, hnul, _⟩ := Lex_spec input
  rw [hLex, nonTerminals_append, nonTerminals_EOF, List.append_nil,
      nonTerminals_eq_self hkinds, hflat, hnul h0, seg_full]

/-- Witness for C1 at the concrete input `"a b"`. -/
theorem lex_segmentation_exact_witness :
    (0 : Nat) ∉ [97, 32, 98] ∧
      ((nonTerminals (Lex [97, 32, 98])).map Item.Value).flatten = [97, 32, 98] :=
  ⟨by decide, lex_segmentation_exact [97, 32, 98] (by decide)⟩

/-- C2 (counterexample): scanning the empty string does not produce
exactly one item — `lexEOF` emits the empty pending segment
unconditionally before the `EOF` marker, so two items appear. -/
theorem lex_empty_not_one_item : (Lex []).length ≠ 1 := by decide

/-- C2 (amended): scanning `""` produces exactly two items: an empty
`Text` item followed by the terminal `EOF` item, both with empty
`Value`. -/
theorem lex_empty_two_items :
    Lex [] = [{ Position := 0, Kind := ItemKind.Text, Value := [] },
              { Position := 0, Kind := ItemKind.EOF, Value := [] }] := by decide

/-- C3 (counterexample): on the input `"a b"` (U+00A0 is
whitespace for `unicode.IsSpace` and two bytes wide) the byte-wise
`backup` splits the scan mid-rune and two consecutive non-empty `Text`
items are emitted, so the alternation claim fails as stated for
arbitrary input. -/
theorem lex_alternation_fails_nbsp :
    Lex [0x61, 0xC2, 0xA0, 0x62] =
      [{ Position := 0, Kind := ItemKind.Text, Value := [0x61, 0xC2] },
       { Position := 2, Kind := ItemKind.Text, Value := [0xA0, 0x62] },
       { Position := 4, Kind := ItemKind.EOF, Value := [] }] ∧
    alternationOK (nonTerminals (Lex [0x61, 0xC2, 0xA0, 0x62])) = false := by decide

/-- C3 (amended): for every input all of whose bytes are ASCII (below
`0x80`), no two consecutive non-terminal items have the same `Kind` when
both have non-empty `Value`: `Text` and `WhiteSpace` strictly
alternate. -/
theorem lex_alternation_ascii (input : List Nat)
    (hascii : ∀ b ∈ input, b < 0x80) :
    alternationOK (nonTerminals (Lex input)) = true := by
  have hsome := scanLoop_isSome input.length Mode.text (mkLexer input)
    (2 * input.length + 2)
    (show (0 : Nat) ≤ input.length by omega)
    (show input.length - 0 ≤ input.length by omega)
    (by omega)
  obtain ⟨out, hout⟩ := Option.isSome_iff_exists.mp hsome
  have halt := scanLoop_alternation (2 * input.length + 2) Mode.text
    (mkLexer input) out hascii (Nat.le_refl 0)
    (show (0 : Nat) ≤ input.length by omega)
    (by simp [mkLexer, nonTerminals, alternationOK])
    (by simp [mkLexer, nonTerminals])
    (by simp [mkLexer, nonTerminals])
    hout
  rw [Lex, hout]
  exact halt

/-- Witness for C3 (amended) at the concrete ASCII input `"a b"`. -/
theorem lex_alternation_ascii_witness :
    (∀ b ∈ [97, 32, 98], b < 0x80) ∧
      alternationOK (nonTerminals (Lex [97, 32, 98])) = true :=
  ⟨by decide, lex_alternation_ascii [97, 32, 98] (by decide)⟩

/-- C4. Every scan terminates with the allotted fuel (`scanLoop`
returns `some`, never the fuel-exhaustion `none`), exactly one terminal
item is produced, it is the last item, and no item follows it. -/
theorem scan_terminates (input : List Nat) :
    ∃ ts pEnd,
      scanLoop (2 * input.length + 2) Mode.text (mkLexer input) =
        some (ts ++ [{ Position := pEnd, Kind := ItemKind.EOF, Value := [] }]) ∧
      Lex input = ts ++ [{ Position := pEnd, Kind := ItemKind.EOF, Value := [] }] ∧
      ∀ i ∈ ts, i.Kind ≠ ItemKind.EOF ∧ i.Kind ≠ ItemKind.ItemError := by
  obtain ⟨ts, pEnd, hscan, hLex, _, hkinds, _, _, _⟩ := Lex_spec input
  refine ⟨ts, pEnd, hscan, hLex, ?_⟩
  intro i hi
  rcases hkinds i hi with hk | hk <;> rw [hk] <;> exact ⟨by decide, by decide⟩

/-- C5 (counterexample): on the empty input an empty non-`EOF` item is
emitted (`lexEOF` emits the zero-length pending segment as `Text`), so
the claim fails as stated. -/
theorem lex_empty_value_exists :
    ∃ i ∈ Lex [], i.Kind ≠ ItemKind.EOF ∧ i.Value = [] := by decide

/-- C5 (amended): for every non-empty input, no emitted item has an
empty `Value` except the `EOF` marker. (On the empty input a single
empty `Text` item is additionally emitted just before `EOF`.) -/
theorem lex_no_empty_values (input : List Nat) (hne : input ≠ []) :
    ∀ i ∈ Lex input, i.Kind ≠ ItemKind.EOF → i.Value ≠ [] := by
  obtain ⟨ts, pEnd, _, hLex, _, _, _, _, hv⟩ := Lex_spec input
  intro i hi hk
  rw [hLex] at hi
  rcases List.mem_append.mp hi with hi | hi
  · exact hv (by cases input with
      | nil => exact absurd rfl hne
      | cons b rest => simp) i hi
  · simp only [List.mem_singleton] at hi
    subst hi
    exact absurd rfl hk

/-- Witness for C5 (amended) at the concrete input `"a"`. -/
theorem lex_no_empty_values_witness :
    ([97] : List Nat) ≠ [] ∧
      ∀ i ∈ Lex [97], i.Kind ≠ ItemKind.EOF → i.Value ≠ [] :=
  ⟨by decide, lex_no_empty_values [97] (by decide)⟩

/-- C6 (counterexample): the `eof` sentinel is `rune(0)`, which is also
a valid code point: on the input consisting of one NUL byte, `next`
returns the sentinel for a rune decoded from within the input, at a
position strictly inside it. -/
theorem next_sentinel_within_input :
    (Lexer.next (mkLexer [0])).1 = eof ∧
      (mkLexer [0]).Position < (mkLexer [0]).input.length := by decide

/-- C6 (amended): whenever `Position ≥ len(input)`, `next` returns the
sentinel `eof` (rune 0) and sets the recorded width to zero. However the
sentinel coincides with the code point U+0000, so it is also returned
when a NUL byte is decoded from within the input. -/
theorem next_at_end (l : Lexer) (h : l.input.length ≤ l.Position) :
    Lexer.next l = (eof, { l with width := 0 }) :=
  next_of_le h

/-- Witness for C6 (amended) at the empty-input lexer. -/
theorem next_at_end_witness :
    (mkLexer []).input.length ≤ (mkLexer []).Position ∧
      Lexer.next (mkLexer []) = (eof, { mkLexer [] with width := 0 }) :=
  ⟨by decide, next_at_end (mkLexer []) (by decide)⟩

/-- C7. `Parse` never returns a non-empty output together with an
error: either the error component is `none`, or the output is the empty
string. -/
theorem parse_never_partial (text : List Nat) :
    (Parse text).2 = none ∨ (Parse text).1 = [] := by
  rcases h : (parseLoop (Lex text) []).2 with _ | e
  · left
    simp [Parse, h]
  · right
    simp [Parse, h]

/-- C8. `Parse "go rocks"` returns `("og skcor", nil)`: each word's
code points are reversed and the separating space is preserved
verbatim. -/
theorem parse_go_rocks :
    Parse [103, 111, 32, 114, 111, 99, 107, 115] =
      ([111, 103, 32, 115, 107, 99, 111, 114], none) := by decide

/-- The cursor bounds are preserved at every recorded point of the
trace: after each `next`, `backup`, `emit` and `ignore` performed by the
state functions, `start ≤ Position ≤ len(input)` still holds. -/
theorem scanStates_invariant (fuel : Nat) :
    ∀ (mode : Mode) (l : Lexer),
      l.start ≤ l.Position → l.Position ≤ l.input.length →
      ∀ s ∈ scanStates fuel mode l,
        s.start ≤ s.Position ∧ s.Position ≤ s.input.length := by
  induction fuel with
  | zero =>
    intro mode l _ _ s hsmem
    simp [scanStates] at hsmem
  | succ fuel ih =>
    intro mode l hs hp s hsmem
    by_cases hpos : l.input.length ≤ l.Position
    · simp only [scanStates, next_of_le hpos] at hsmem
      rw [if_pos trivial] at hsmem
      simp only [lexEOFStates, Lexer.emit, Lexer.ignore] at hsmem
      rw [if_neg (show ¬ l.Position < l.start by omega)] at hsmem
      simp only [List.mem_cons, List.mem_singleton, List.not_mem_nil, or_false]
        at hsmem
      rcases hsmem with rfl | rfl | rfl | rfl
      · exact ⟨hs, hp⟩
      · exact ⟨hs, hp⟩
      · exact ⟨Nat.le_refl _, hp⟩
      · exact ⟨Nat.le_refl _, hp⟩
    · have hlt : l.Position < l.input.length := Nat.lt_of_not_le hpos
      have hdrop : l.input.drop l.Position ≠ [] := by
        intro hnil
        have := congrArg List.length hnil
        simp only [List.length_drop, List.length_nil] at this
        omega
      have hw1 : 1 ≤ (decodeRune (l.input.drop l.Position)).2 :=
        decodeRune_snd_pos' hdrop
      have hw2 : (decodeRune (l.input.drop l.Position)).2 ≤
          l.input.length - l.Position := by
        have := decodeRune_snd_le (l.input.drop l.Position)
        simpa using this
      simp only [scanStates, next_of_lt hlt] at hsmem
      by_cases hr : (decodeRune (l.input.drop l.Position)).1 = eof
      · rw [if_pos hr] at hsmem
        simp only [lexEOFStates, Lexer.emit, Lexer.ignore] at hsmem
        rw [if_neg (show ¬ l.Position + (decodeRune (l.input.drop l.Position)).2 <
          l.start by omega)] at hsmem
        simp only [List.mem_cons, List.mem_singleton, List.not_mem_nil, or_false]
          at hsmem
        rcases hsmem with rfl | rfl | rfl | rfl
        · exact ⟨show l.start ≤ l.Position + (decodeRune (l.input.drop l.Position)).2
            by omega, show l.Position + (decodeRune (l.input.drop l.Position)).2 ≤
            l.input.length by omega⟩
        · exact ⟨show l.start ≤ l.Position + (decodeRune (l.input.drop l.Position)).2
            by omega, show l.Position + (decodeRune (l.input.drop l.Position)).2 ≤
            l.input.length by omega⟩
        · exact ⟨Nat.le_refl _,
            show l.Position + (decodeRune (l.input.drop l.Position)).2 ≤
              l.input.length by omega⟩
        · exact ⟨Nat.le_refl _,
            show l.Position + (decodeRune (l.input.drop l.Position)).2 ≤
              l.input.length by omega⟩
      · rw [if_neg hr] at hsmem
        by_cases hbd : boundary mode (decodeRune (l.input.drop l.Position)).1 = true
        · rw [if_pos hbd] at hsmem
          simp only [Lexer.backup, Lexer.emit, Lexer.ignore] at hsmem
          split at hsmem
          · rename_i hemit
            have hemit' : l.start < l.Position + (decodeRune (l.input.drop l.Position)).2 - 1 :=
              hemit
            simp only [List.mem_cons] at hsmem
            rcases hsmem with rfl | rfl | rfl | hsmem
            · exact ⟨show l.start ≤ l.Position + (decodeRune (l.input.drop l.Position)).2
                by omega, show l.Position + (decodeRune (l.input.drop l.Position)).2 ≤
                l.input.length by omega⟩
            · exact ⟨show l.start ≤ l.Position + (decodeRune (l.input.drop l.Position)).2 - 1
                by omega, show l.Position + (decodeRune (l.input.drop l.Position)).2 - 1 ≤
                l.input.length by omega⟩
            · exact ⟨Nat.le_refl _,
                show l.Position + (decodeRune (l.input.drop l.Position)).2 - 1 ≤
                  l.input.length by omega⟩
            · exact ih (otherMode mode) _ (Nat.le_refl _)
                (show l.Position + (decodeRune (l.input.drop l.Position)).2 - 1 ≤
                  l.input.length by omega) s hsmem
          · rename_i hnoemit
            have hnoemit' :
                ¬ l.start < l.Position + (decodeRune (l.input.drop l.Position)).2 - 1 :=
              hnoemit
            simp only [List.mem_cons] at hsmem
            rcases hsmem with rfl | rfl | rfl | hsmem
            · exact ⟨show l.start ≤ l.Position + (decodeRune (l.input.drop l.Position)).2
                by omega, show l.Position + (decodeRune (l.input.drop l.Position)).2 ≤
                l.input.length by omega⟩
            · exact ⟨show l.start ≤ l.Position + (decodeRune (l.input.drop l.Position)).2 - 1
                by omega, show l.Position + (decodeRune (l.input.drop l.Position)).2 - 1 ≤
                l.input.length by omega⟩
            · exact ⟨show l.start ≤ l.Position + (decodeRune (l.input.drop l.Position)).2 - 1
                by omega, show l.Position + (decodeRune (l.input.drop l.Position)).2 - 1 ≤
                l.input.length by omega⟩
            · exact ih (otherMode mode)
                { l with Position := l.Position + (decodeRune (l.input.drop l.Position)).2 - 1,
                         width := (decodeRune (l.input.drop l.Position)).2 }
                (show l.start ≤ l.Position + (decodeRune (l.input.drop l.Position)).2 - 1
                  by omega)
                (show l.Position + (decodeRune (l.input.drop l.Position)).2 - 1 ≤
                  l.input.length by omega) s hsmem
        · rw [if_neg hbd] at hsmem
          simp only [List.mem_cons] at hsmem
          rcases hsmem with rfl | hsmem
          · exact ⟨show l.start ≤ l.Position + (decodeRune (l.input.drop l.Position)).2
              by omega, show l.Position + (decodeRune (l.input.drop l.Position)).2 ≤
              l.input.length by omega⟩
          · exact ih mode
              { l with Position := l.Position + (decodeRune (l.input.drop l.Position)).2,
                       width := (decodeRune (l.input.drop l.Position)).2 }
              (show l.start ≤ l.Position + (decodeRune (l.input.drop l.Position)).2
                by omega)
              (show l.Position + (decodeRune (l.input.drop l.Position)).2 ≤
                l.input.length by omega) s hsmem

/-- C9. At every point during a scan — after each cursor operation
(`next`, `backup`, `ignore`, `emit`) as invoked by the state functions
from the initial state — the cursor satisfies
`start ≤ Position ≤ len(input)`. `scanStates` records the `Lexer` value
after every such operation of the very scan `scanLoop` performs. -/
theorem scan_cursor_invariant (fuel : Nat) (input : List Nat) (s : Lexer)
    (hsmem : s ∈ scanStates fuel Mode.text (mkLexer input)) :
    s.start ≤ s.Position ∧ s.Position ≤ s.input.length :=
  scanStates_invariant fuel Mode.text (mkLexer input)
    (Nat.le_refl 0) (Nat.zero_le _) s hsmem

/-- Witness for C9 at the concrete input `"a"`, at the state reached
right after the first `next`. -/
theorem scan_cursor_invariant_witness :
    ({ input := [97], start := 0, Position := 1, width := 1, Items := [] } : Lexer) ∈
      scanStates 4 Mode.text (mkLexer [97]) ∧
    (({ input := [97], start := 0, Position := 1, width := 1,
        Items := [] } : Lexer).start ≤
      ({ input := [97], start := 0, Position := 1, width := 1,
         Items := [] } : Lexer).Position ∧
      ({ input := [97], start := 0, Position := 1, width := 1,
         Items := [] } : Lexer).Position ≤
        ({ input := [97], start := 0, Position := 1, width := 1,
           Items := [] } : Lexer).input.length) :=
  ⟨by decide, scan_cursor_invariant 4 [97] _ (by decide)⟩

/-- C10. No `ItemError` item is ever produced (no state function calls
`errorf`), and consequently `Parse` returns a nil error for every
input. -/
theorem no_error_items (input : List Nat) :
    (∀ i ∈ Lex input, i.Kind ≠ ItemKind.ItemError) ∧ (Parse input).2 = none := by
  obtain ⟨ts, pEnd, _, hLex, _, hkinds, _, _, _⟩ := Lex_spec input
  constructor
  · intro i hi
    rw [hLex] at hi
    rcases List.mem_append.mp hi with hi | hi
    · rcases hkinds i hi with hk | hk <;> rw [hk] <;> decide
    · simp only [List.mem_singleton] at hi
      subst hi
      show ItemKind.EOF ≠ ItemKind.ItemError
      decide
  · have hpl : (parseLoop (Lex input) []).2 = none := by
      rw [hLex]
      exact parseLoop_no_error ts [] pEnd hkinds
    simp [Parse, hpl]

end Maxo
